/-
Verification of the sparse shift-operator algebra and differentiation
driver of sequence_jacobian/blocks/simple_block.py, shallowly embedded
in Lean 4.

Modelling conventions:
- Python floats are modelled as exact rationals (ℚ).
- Python dicts are modelled as association lists with unique keys; the
  dict operations (lookup, in-place update, deletion, insertion at the
  end) are the functions alookup / aupdate / aerase / append below.
- NumPy arrays are modelled by their shape together with an entry
  function; slice assignment on a flattened T*T array is modelled by a
  decidable hit-predicate on flat indices that reproduces Python slice
  semantics for a positive step (negative bounds wrap by the length and
  are clamped into range).
-/
import Mathlib

set_option maxHeartbeats 1000000

/-! ## Association lists standing in for Python dicts -/

/-- First-match lookup in an association list (Python: d[k] / k in d). -/
def alookup {α : Type} [DecidableEq α] : List (α × ℚ) → α → Option ℚ
  | [], _ => none
  | p :: rest, k => if p.1 = k then some p.2 else alookup rest k

/-- In-place update of an existing binding (Python: d[k] = v with k in d). -/
def aupdate {α : Type} [DecidableEq α] : List (α × ℚ) → α → ℚ → List (α × ℚ)
  | [], _, _ => []
  | p :: rest, k, v =>
      if p.1 = k then (k, v) :: aupdate rest k v else p :: aupdate rest k v

/-- Removal of a binding (Python: del d[k]). -/
def aerase {α : Type} [DecidableEq α] : List (α × ℚ) → α → List (α × ℚ)
  | [], _ => []
  | p :: rest, k => if p.1 = k then aerase rest k else p :: aerase rest k

/-- The keys of an association list. -/
def akeys {α : Type} (l : List (α × ℚ)) : List α :=
  l.map Prod.fst

/-! ## The sparse operator algebra -/

/-- A basis key (i, m): diagonal offset i and number m of missing leading
entries, as in the SimpleSparse docstring. -/
abbrev SKey := Int × Int

/-- SimpleSparse: a linear combination of basis operators, stored as the
dict elements mapping (i, m) -> x. -/
structure SimpleSparse where
  elements : List (SKey × ℚ)
deriving DecidableEq

/-- SimpleSparse.from_simple_diagonals: take dict i -> x and convert to
the SimpleSparse with elements (i, 0) -> x. -/
def SimpleSparse.from_simple_diagonals (l : List (Int × ℚ)) : SimpleSparse :=
  ⟨l.map (fun p => ((p.1, 0), p.2))⟩

/-- multiply_basis from simple_block.py: closed-form composition of two
basis keys. -/
def multiply_basis (t1 t2 : SKey) : SKey :=
  let i := t1.1
  let m := t1.2
  let j := t2.1
  let n := t2.2
  let k := i + j
  let l :=
    if 0 ≤ i then
      if 0 ≤ j then max m (n - i)
      else if 0 ≤ k then max m (n - k)
      else max (m + k) n
    else
      if j ≤ 0 then max (m + j) n
      else max m n + min (-i) j
  (k, l)

/-- Accumulation step of multiply_rs_rs: add a pairwise product onto the
dict of results (elements[kl] += xy if kl in elements else elements[kl] = xy). -/
def mulAccum (acc : List (SKey × ℚ)) (kl : SKey) (xy : ℚ) : List (SKey × ℚ) :=
  match alookup acc kl with
  | some v => aupdate acc kl (v + xy)
  | none => acc ++ [(kl, xy)]

/-- multiply_rs_rs from simple_block.py: product of two SimpleSparse
objects, accumulating pairwise products of coefficients into a dict. -/
def multiply_rs_rs (s1 s2 : SimpleSparse) : SimpleSparse :=
  ⟨s1.elements.foldl
    (fun acc p => s2.elements.foldl
      (fun acc2 q => mulAccum acc2 (multiply_basis p.1 q.1) (p.2 * q.2)) acc)
    []⟩

/-- One step of SimpleSparse.__add__: fold the binding p of the right
operand into the dict copied from the left operand, deleting a summed
coefficient whose magnitude falls below 1e-14. -/
def addStep (els : List (SKey × ℚ)) (p : SKey × ℚ) : List (SKey × ℚ) :=
  match alookup els p.1 with
  | some v =>
      if |v + p.2| < 1 / 10 ^ 14 then aerase els p.1
      else aupdate els p.1 (v + p.2)
  | none => els ++ [(p.1, p.2)]

/-- SimpleSparse.__add__, SimpleSparse branch: combine the dicts, summing
coefficients on overlapping keys. -/
def SimpleSparse.add (s1 s2 : SimpleSparse) : SimpleSparse :=
  ⟨s2.elements.foldl addStep s1.elements⟩

/-- The identity operator: single entry at basis key (0, 0) with
coefficient 1. -/
def identitySS : SimpleSparse := ⟨[((0, 0), 1)]⟩

/-! ## Dense materialization and composition with matrices -/

/-- Python slice-bound adjustment for a slice with positive step over an
array of the given length: a negative bound counts from the end, then
both bounds are clamped into the range [0, len]. -/
def sliceAdjust (len v : Int) : Int :=
  if v < 0 then max (v + len) 0 else min v len

/-- Whether flat index f of the flattened T*T array is written when basis
element (i, m) is added onto it by the ndarray branch of
SimpleSparse.__add__: A[i + (T+1)*m : (T-i)*T : T+1] += x for i >= 0 and
A[T*(-i) + (T+1)*m :: T+1] += x for i < 0, with Python slice-bound
semantics. -/
def diagSliceHit (T : Nat) (i m f : Int) : Bool :=
  let len : Int := (T : Int) * T
  if 0 ≤ i then
    let start := sliceAdjust len (i + ((T : Int) + 1) * m)
    let stop := sliceAdjust len (((T : Int) - i) * T)
    decide (start ≤ f ∧ f < stop ∧ ((T : Int) + 1) ∣ (f - start))
  else
    let start := sliceAdjust len ((T : Int) * (-i) + ((T : Int) + 1) * m)
    decide (start ≤ f ∧ f < len ∧ ((T : Int) + 1) ∣ (f - start))

/-- SimpleSparse.__add__, ndarray branch: entry (t, u) of s + A for a
square T*T matrix A, through the flattened-array slice assignments. -/
def addDense (s : SimpleSparse) (T : Nat) (A : Nat → Nat → ℚ) :
    Nat → Nat → ℚ :=
  fun t u => A t u +
    (s.elements.map (fun e =>
      if diagSliceHit T e.1.1 e.1.2 ((t : Int) * T + u) then e.2 else 0)).sum

/-- SimpleSparse.matrix: materialize the first T rows and columns of the
operator, computed in the source as self + np.zeros((T, T)). -/
def SimpleSparse.matrix (s : SimpleSparse) (T : Nat) : Nat → Nat → ℚ :=
  addDense s T (fun _ _ => 0)

/-- Contribution of one stored basis element (i, m) -> x to row t of
multiply_rs_matrix: the three jitted loops of the source, which read
A[t + i] for t in range(m, T), range(m, T - i) or range(m - i, T)
according to the sign of i. -/
def elemContrib (T : Nat) (e : SKey × ℚ) (A : Nat → Nat → ℚ)
    (t u : Nat) : ℚ :=
  let i := e.1.1
  let m := e.1.2
  let x := e.2
  if i = 0 then
    if m ≤ (t : Int) ∧ (t : Int) < (T : Int) then x * A t u else 0
  else if 0 < i then
    if m ≤ (t : Int) ∧ (t : Int) < (T : Int) - i then
      x * A ((t : Int) + i).toNat u
    else 0
  else
    if m - i ≤ (t : Int) ∧ (t : Int) < (T : Int) then
      x * A ((t : Int) + i).toNat u
    else 0

/-- multiply_rs_matrix: entry (t, u) of the product of the stored basis
elements with a matrix A having T rows. -/
def multiply_rs_matrix (elements : List (SKey × ℚ)) (T : Nat)
    (A : Nat → Nat → ℚ) (t u : Nat) : ℚ :=
  (elements.map (fun e => elemContrib T e A t u)).sum

/-- SimpleSparse.__matmul__ with a 1-D vector of length T on the right:
the source inserts a new axis, runs multiply_rs_matrix, and takes
column 0 of the result. -/
def SimpleSparse.matmulVec (s : SimpleSparse) (T : Nat) (v : Nat → ℚ)
    (t : Nat) : ℚ :=
  multiply_rs_matrix s.elements T (fun r _ => v r) t 0

/-- Ordinary dense matrix-vector product of a T*T matrix with a length-T
vector. -/
def matVecMul (T : Nat) (M : Nat → Nat → ℚ) (v : Nat → ℚ) (t : Nat) : ℚ :=
  ∑ u ∈ Finset.range T, M t u * v u

/-- A NumPy array value: a shape together with an entry function on
index tuples. -/
structure NDArray where
  shape : List Nat
  entry : List Nat → ℚ

/-- Number of dimensions of an array. -/
def NDArray.ndim (A : NDArray) : Nat := A.shape.length

/-- SimpleSparse.__matmul__ with an ndarray argument: a rank-2 array goes
through multiply_rs_matrix (whatever its column count), a rank-1 array
through the newaxis path, and any other rank returns NotImplemented
(modelled as none), which Python surfaces as a TypeError at the caller. -/
def SimpleSparse.matmul (s : SimpleSparse) (A : NDArray) : Option NDArray :=
  if A.ndim = 2 then
    some ⟨[A.shape.getD 0 0, A.shape.getD 1 0],
      fun idx => multiply_rs_matrix s.elements (A.shape.getD 0 0)
        (fun t u => A.entry [t, u]) (idx.getD 0 0) (idx.getD 1 0)⟩
  else if A.ndim = 1 then
    some ⟨[A.shape.getD 0 0],
      fun idx => multiply_rs_matrix s.elements (A.shape.getD 0 0)
        (fun t _ => A.entry [t]) (idx.getD 0 0) 0⟩
  else none

/-- Written from the spec's words for C4 (refinement side): flat index f
lies in the described run for key (i, m), i.e. start i + (T+1)m, stride
T+1, stopping before (T-i)*T when i >= 0; start T*(-i) + (T+1)m, same
stride, to the end of the flattened array when i < 0 — read as plain
integer arithmetic, with no Python slice wrap-around. -/
def specRunHit (T : Nat) (i m f : Int) : Bool :=
  if 0 ≤ i then
    decide (i + ((T : Int) + 1) * m ≤ f ∧ f < ((T : Int) - i) * T ∧
      ((T : Int) + 1) ∣ (f - (i + ((T : Int) + 1) * m)))
  else
    decide ((T : Int) * (-i) + ((T : Int) + 1) * m ≤ f ∧
      f < (T : Int) * T ∧
      ((T : Int) + 1) ∣ (f - ((T : Int) * (-i) + ((T : Int) + 1) * m)))

/-- The materialized-matrix entry function described by the spec's
placement rule (refinement side of C4). -/
def specMatrixEntry (s : SimpleSparse) (T : Nat) (t u : Nat) : ℚ :=
  (s.elements.map (fun e =>
    if specRunHit T e.1.1 e.1.2 ((t : Int) * T + u) then e.2 else 0)).sum

/-! ## Displacement-aware values -/

/-- The missing-steady-state error message raised by Displace.__call__. -/
def missingSsMsg (name : String) (index : Int) : String :=
  "Trying to call " ++ name ++ "(" ++ toString index ++
    "), but steady-state " ++ name ++ " not given!"

/-- Displace: a time path with an optional steady-state value and a
variable name. -/
structure Displace where
  x : List ℚ
  ss : Option ℚ
  name : String

/-- Displace.__call__: offset 0 returns self; a nonzero offset shifts the
path, filling the vacated boundary entries with the steady state
(newx[:-index] = x[index:] or newx[-index:] = x[:index] written onto a
np.full(T, ss) base), and raises KeyError when the steady state is
missing. -/
def Displace.call (d : Displace) (index : Int) : Except String Displace :=
  if index = 0 then Except.ok d
  else
    match d.ss with
    | none => Except.error (missingSsMsg d.name index)
    | some sv =>
        let T := d.x.length
        if 0 < index then
          Except.ok ⟨d.x.drop index.toNat ++
            List.replicate (min index.toNat T) sv, some sv, "UNKNOWN"⟩
        else
          Except.ok ⟨List.replicate (min (-index).toNat T) sv ++
            d.x.take (T - (-index).toNat), some sv, "UNKNOWN"⟩

/-! ## The differentiation driver -/

/-- A single-input simple-block body: the input may be used directly (at
offset 0) or called at an integer offset, and combined with constants by
arithmetic. -/
inductive BlockExpr where
  | const (c : ℚ)
  | var
  | call (j : Int)
  | add (a b : BlockExpr)
  | sub (a b : BlockExpr)
  | mul (a b : BlockExpr)

/-- The offsets recorded into the Reporter's shared set while the block
body is evaluated: every explicit call contributes its offset. -/
def reporterOffsets : BlockExpr → List Int
  | .const _ => []
  | .var => []
  | .call j => [j]
  | .add a b => reporterOffsets a ++ reporterOffsets b
  | .sub a b => reporterOffsets a ++ reporterOffsets b
  | .mul a b => reporterOffsets a ++ reporterOffsets b

/-- Float value of a Perturb(value, h, index) object: value + h when its
target offset is 0 (baked into the literal representation by __new__),
else value. -/
def perturbSelf (value h : ℚ) (pindex : Int) : ℚ :=
  if pindex = 0 then value + h else value

/-- Perturb.__call__ at a requested offset. -/
def perturbCall (value h : ℚ) (pindex index : Int) : ℚ :=
  if pindex = 0 then
    if index = 0 then perturbSelf value h pindex
    else perturbSelf value h pindex - h
  else
    if pindex = index then perturbSelf value h pindex + h
    else perturbSelf value h pindex

/-- Evaluate a block body with its input bound to Perturb(ss, h, pindex). -/
def evalPerturb (ss h : ℚ) (pindex : Int) : BlockExpr → ℚ
  | .const c => c
  | .var => perturbSelf ss h pindex
  | .call j => perturbCall ss h pindex j
  | .add a b => evalPerturb ss h pindex a + evalPerturb ss h pindex b
  | .sub a b => evalPerturb ss h pindex a - evalPerturb ss h pindex b
  | .mul a b => evalPerturb ss h pindex a * evalPerturb ss h pindex b

/-- The perturb-and-difference loop of SimpleBlock.jac for one input: for
each discovered offset, evaluate the block under the +h and -h
perturbations and record the symmetric difference quotient in the
sparsederiv dict only when the two evaluations differ. -/
def jacDriver (offsets : List Int) (yup ydown : Int → ℚ) (h : ℚ) :
    List (Int × ℚ) :=
  offsets.foldl
    (fun sd i =>
      if yup i ≠ ydown i then sd ++ [(i, (yup i - ydown i) / (2 * h))]
      else sd) []

/-- SimpleBlock.jac restricted to a single-input block body: discover the
used offsets with a Reporter pass (offset 0 is always added), then run
the perturbation loop. -/
def jacOneInput (e : BlockExpr) (ss h : ℚ) : List (Int × ℚ) :=
  jacDriver ((0 :: reporterOffsets e).dedup)
    (fun i => evalPerturb ss h i e) (fun i => evalPerturb ss (-h) i e) h

/-! ## SimpleBlock.td input validation -/

/-- A keyword-argument value handed to SimpleBlock.td: a scalar or a
time path. -/
inductive TDValue where
  | scalar (x : ℚ)
  | path (xs : List ℚ)

/-- The ValueError message of SimpleBlock.td for a scalar keyword
argument. -/
def tdScalarMsg (k : String) (x : ℚ) : String :=
  "Keyword argument " ++ k ++ "=" ++ toString x ++
    " is scalar, should be time path."

/-- The kwargs-validation loop of SimpleBlock.td: wrap every time path in
a Displace carrying its steady state, raising on the first scalar
keyword argument. -/
def tdWrap (ss : String → Option ℚ) :
    List (String × TDValue) → Except String (List (String × Displace))
  | [] => Except.ok []
  | (k, TDValue.scalar x) :: _ => Except.error (tdScalarMsg k x)
  | (k, TDValue.path xs) :: rest =>
      match tdWrap ss rest with
      | Except.ok l => Except.ok ((k, ⟨xs, ss k, k⟩) :: l)
      | Except.error e => Except.error e

/-- SimpleBlock.td: validate and wrap the keyword arguments, then (and
only then) evaluate the block body f on them. -/
def SimpleBlock.td (f : List (String × Displace) → ℚ)
    (ss : String → Option ℚ) (kwargs : List (String × TDValue)) :
    Except String ℚ :=
  match tdWrap ss kwargs with
  | Except.ok l => Except.ok (f l)
  | Except.error e => Except.error e

/-! ## Lemmas about association lists -/

theorem alookup_nil {α : Type} [DecidableEq α] (k : α) :
    alookup [] k = none := rfl

theorem alookup_cons {α : Type} [DecidableEq α] (p : α × ℚ)
    (l : List (α × ℚ)) (k : α) :
    alookup (p :: l) k = if p.1 = k then some p.2 else alookup l k := rfl

theorem akeys_cons {α : Type} (p : α × ℚ) (l : List (α × ℚ)) :
    akeys (p :: l) = p.1 :: akeys l := rfl

theorem alookup_append_of_none {α : Type} [DecidableEq α]
    {l : List (α × ℚ)} {k : α} (h : alookup l k = none) (r : List (α × ℚ)) :
    alookup (l ++ r) k = alookup r k := by
  induction l with
  | nil => rfl
  | cons p rest ih =>
    rw [alookup_cons] at h
    by_cases he : p.1 = k
    · rw [if_pos he] at h
      exact absurd h (by simp)
    · rw [if_neg he] at h
      rw [List.cons_append, alookup_cons, if_neg he]
      exact ih h

theorem alookup_append_of_some {α : Type} [DecidableEq α]
    {l : List (α × ℚ)} {k : α} {v : ℚ} (h : alookup l k = some v)
    (r : List (α × ℚ)) : alookup (l ++ r) k = some v := by
  induction l with
  | nil => exact absurd h (by simp [alookup_nil])
  | cons p rest ih =>
    rw [alookup_cons] at h
    rw [List.cons_append, alookup_cons]
    by_cases he : p.1 = k
    · rwa [if_pos he] at h ⊢
    · rw [if_neg he] at h ⊢
      exact ih h

theorem alookup_aupdate_self {α : Type} [DecidableEq α] :
    ∀ {l : List (α × ℚ)} {k : α} {v : ℚ},
      alookup l k = some v → ∀ w, alookup (aupdate l k w) k = some w := by
  intro l
  induction l with
  | nil => intro k v h; exact absurd h (by simp [alookup_nil])
  | cons p rest ih =>
    intro k v h w
    rw [alookup_cons] at h
    by_cases he : p.1 = k
    · rw [aupdate, if_pos he, alookup_cons, if_pos rfl]
    · rw [if_neg he] at h
      rw [aupdate, if_neg he, alookup_cons, if_neg he]
      exact ih h w

theorem alookup_aupdate_ne {α : Type} [DecidableEq α]
    (l : List (α × ℚ)) {k k' : α} (h : k ≠ k') (w : ℚ) :
    alookup (aupdate l k' w) k = alookup l k := by
  induction l with
  | nil => rfl
  | cons p rest ih =>
    by_cases he : p.1 = k'
    · rw [aupdate, if_pos he, alookup_cons, alookup_cons]
      have h1 : ¬(k' = k) := fun hh => h hh.symm
      have h2 : ¬(p.1 = k) := he ▸ h1
      rw [if_neg h1, if_neg h2]
      exact ih
    · rw [aupdate, if_neg he, alookup_cons, alookup_cons]
      by_cases he2 : p.1 = k
      · rw [if_pos he2, if_pos he2]
      · rw [if_neg he2, if_neg he2]
        exact ih

theorem alookup_aerase_self {α : Type} [DecidableEq α]
    (l : List (α × ℚ)) (k : α) : alookup (aerase l k) k = none := by
  induction l with
  | nil => rfl
  | cons p rest ih =>
    by_cases he : p.1 = k
    · rw [aerase, if_pos he]
      exact ih
    · rw [aerase, if_neg he, alookup_cons, if_neg he]
      exact ih

theorem alookup_aerase_ne {α : Type} [DecidableEq α]
    (l : List (α × ℚ)) {k k' : α} (h : k ≠ k') :
    alookup (aerase l k') k = alookup l k := by
  induction l with
  | nil => rfl
  | cons p rest ih =>
    by_cases he : p.1 = k'
    · rw [aerase, if_pos he, alookup_cons]
      have h2 : ¬(p.1 = k) := he ▸ fun hh => h hh.symm
      rw [if_neg h2]
      exact ih
    · rw [aerase, if_neg he, alookup_cons, alookup_cons]
      by_cases he2 : p.1 = k
      · rw [if_pos he2, if_pos he2]
      · rw [if_neg he2, if_neg he2]
        exact ih

theorem alookup_eq_none_of_not_mem {α : Type} [DecidableEq α]
    {l : List (α × ℚ)} {k : α} (h : k ∉ akeys l) : alookup l k = none := by
  induction l with
  | nil => rfl
  | cons p rest ih =>
    rw [akeys_cons, List.mem_cons] at h
    push_neg at h
    rw [alookup_cons, if_neg (fun he : p.1 = k => h.1 he.symm)]
    exact ih h.2

theorem alookup_mem_of_some {α : Type} [DecidableEq α] :
    ∀ {l : List (α × ℚ)} {k : α} {v : ℚ},
      alookup l k = some v → k ∈ akeys l := by
  intro l
  induction l with
  | nil => intro k v h; exact absurd h (by simp [alookup_nil])
  | cons p rest ih =>
    intro k v h
    rw [alookup_cons] at h
    rw [akeys_cons, List.mem_cons]
    by_cases he : p.1 = k
    · exact Or.inl he.symm
    · rw [if_neg he] at h
      exact Or.inr (ih h)

theorem alookup_of_mem {α : Type} [DecidableEq α] :
    ∀ {l : List (α × ℚ)} {k : α}, k ∈ akeys l →
      ∃ v, alookup l k = some v := by
  intro l
  induction l with
  | nil => intro k hk; exact absurd hk (by simp [akeys])
  | cons p rest ih =>
    intro k hk
    rw [akeys_cons, List.mem_cons] at hk
    by_cases he : p.1 = k
    · exact ⟨p.2, by rw [alookup_cons, if_pos he]⟩
    · rcases hk with hk | hk
      · exact absurd hk.symm he
      · obtain ⟨v, hv⟩ := ih hk
        exact ⟨v, by rw [alookup_cons, if_neg he]; exact hv⟩

/-! ## Lemmas about the addition fold -/

theorem addStep_eq_none {els : List (SKey × ℚ)} {p : SKey × ℚ}
    (h : alookup els p.1 = none) : addStep els p = els ++ [(p.1, p.2)] := by
  unfold addStep
  rw [h]

theorem addStep_eq_some {els : List (SKey × ℚ)} {p : SKey × ℚ} {v : ℚ}
    (h : alookup els p.1 = some v) :
    addStep els p = if |v + p.2| < 1 / 10 ^ 14 then aerase els p.1
      else aupdate els p.1 (v + p.2) := by
  unfold addStep
  rw [h]

theorem addStep_preserves {k : SKey} {p : SKey × ℚ} (h : k ≠ p.1)
    (els : List (SKey × ℚ)) : alookup (addStep els p) k = alookup els k := by
  cases hl : alookup els p.1 with
  | none =>
    rw [addStep_eq_none hl]
    cases hk : alookup els k with
    | none =>
      rw [alookup_append_of_none hk, alookup_cons, alookup_nil,
        if_neg (fun he : p.1 = k => h he.symm)]
    | some v => rw [alookup_append_of_some hk]
  | some v =>
    rw [addStep_eq_some hl]
    by_cases hs : |v + p.2| < 1 / 10 ^ 14
    · rw [if_pos hs, alookup_aerase_ne _ h]
    · rw [if_neg hs, alookup_aupdate_ne _ h]

theorem foldl_addStep_preserves {k : SKey} :
    ∀ {l : List (SKey × ℚ)}, k ∉ akeys l → ∀ els : List (SKey × ℚ),
      alookup (l.foldl addStep els) k = alookup els k := by
  intro l
  induction l with
  | nil => intro _ els; rfl
  | cons p rest ih =>
    intro hk els
    rw [akeys_cons, List.mem_cons] at hk
    push_neg at hk
    rw [List.foldl_cons, ih hk.2 (addStep els p), addStep_preserves hk.1 els]

theorem foldl_addStep_overlap {k : SKey} :
    ∀ (l : List (SKey × ℚ)) (els : List (SKey × ℚ)),
      (akeys l).Nodup → k ∈ akeys l → k ∈ akeys els →
      ∀ c, alookup (l.foldl addStep els) k = some c → 1 / 10 ^ 14 ≤ |c| := by
  intro l
  induction l with
  | nil => intro els _ hk; exact absurd hk (by simp [akeys])
  | cons p rest ih =>
    intro els hnd hk hels c hc
    rw [akeys_cons, List.nodup_cons] at hnd
    by_cases he : p.1 = k
    · have hrest : k ∉ akeys rest := fun hmem => hnd.1 (he ▸ hmem)
      obtain ⟨v, hv⟩ := alookup_of_mem hels
      have hv' : alookup els p.1 = some v := by rw [he]; exact hv
      rw [List.foldl_cons, foldl_addStep_preserves hrest,
        addStep_eq_some hv'] at hc
      rw [he] at hc
      by_cases hs : |v + p.2| < 1 / 10 ^ 14
      · rw [if_pos hs, alookup_aerase_self] at hc
        exact absurd hc (by simp)
      · rw [if_neg hs, alookup_aupdate_self hv] at hc
        obtain rfl : v + p.2 = c := by injection hc
        exact le_of_not_lt hs
    · have hk' : k ∈ akeys rest := by
        rw [akeys_cons, List.mem_cons] at hk
        rcases hk with hk | hk
        · exact absurd hk.symm he
        · exact hk
      have hels' : k ∈ akeys (addStep els p) := by
        obtain ⟨v, hv⟩ := alookup_of_mem hels
        refine alookup_mem_of_some (v := v) ?_
        rw [addStep_preserves (fun hh : k = p.1 => he hh.symm) els]
        exact hv
      rw [List.foldl_cons] at hc
      exact ih (addStep els p) hnd.2 hk' hels' c hc

/-! ## Lemmas about multiply_basis and identity composition -/

theorem mulAccum_eq_none {acc : List (SKey × ℚ)} {kl : SKey} {xy : ℚ}
    (h : alookup acc kl = none) : mulAccum acc kl xy = acc ++ [(kl, xy)] := by
  unfold mulAccum
  rw [h]

theorem mulAccum_eq_some {acc : List (SKey × ℚ)} {kl : SKey} {xy v : ℚ}
    (h : alookup acc kl = some v) :
    mulAccum acc kl xy = aupdate acc kl (v + xy) := by
  unfold mulAccum
  rw [h]

theorem multiply_basis_assoc (a b c : SKey) :
    multiply_basis (multiply_basis a b) c =
      multiply_basis a (multiply_basis b c) := by
  obtain ⟨i1, m1⟩ := a
  obtain ⟨i2, m2⟩ := b
  obtain ⟨i3, m3⟩ := c
  simp only [multiply_basis]
  refine Prod.ext (by dsimp only; omega) ?_
  dsimp only
  split_ifs <;> omega

theorem multiply_rs_rs_singleton (a b : SKey) (x y : ℚ) :
    multiply_rs_rs ⟨[(a, x)]⟩ ⟨[(b, y)]⟩ =
      ⟨[(multiply_basis a b, x * y)]⟩ := rfl

theorem multiply_basis_id_right {i m : Int} (hm : 0 ≤ m) :
    multiply_basis (i, m) (0, 0) = (i, m) := by
  simp only [multiply_basis]
  refine Prod.ext (by dsimp only; omega) ?_
  dsimp only
  split_ifs <;> omega

theorem multiply_basis_id_left {j n : Int} (hn : 0 ≤ n) :
    multiply_basis (0, 0) (j, n) = (j, n) := by
  simp only [multiply_basis]
  refine Prod.ext (by dsimp only; omega) ?_
  dsimp only
  split_ifs <;> omega

theorem foldl_mul_id_right :
    ∀ (l acc : List (SKey × ℚ)), (∀ p ∈ l, 0 ≤ p.1.2) →
      (∀ p ∈ l, alookup acc p.1 = none) → (akeys l).Nodup →
      l.foldl (fun a p => mulAccum a (multiply_basis p.1 (0, 0)) (p.2 * 1)) acc
        = acc ++ l := by
  intro l
  induction l with
  | nil => intro acc _ _ _; simp
  | cons p rest ih =>
    intro acc hm hnone hnd
    rw [akeys_cons, List.nodup_cons] at hnd
    rw [List.foldl_cons]
    have hid : multiply_basis p.1 (0, 0) = p.1 := by
      obtain ⟨⟨i, m⟩, x⟩ := p
      exact multiply_basis_id_right (hm ⟨(i, m), x⟩ (List.mem_cons_self _ _))
    have hnp : alookup acc p.1 = none := hnone p (List.mem_cons_self _ _)
    have hstep : mulAccum acc (multiply_basis p.1 (0, 0)) (p.2 * 1)
        = acc ++ [p] := by
      rw [hid, mulAccum_eq_none hnp, mul_one]
    rw [hstep, ih (acc ++ [p]) (fun q hq => hm q (List.mem_cons_of_mem _ hq))
      (fun q hq => by
        rw [alookup_append_of_none (hnone q (List.mem_cons_of_mem _ hq)),
          alookup_cons, alookup_nil]
        have hne : ¬(p.1 = q.1) := by
          intro he
          exact hnd.1 (he ▸ List.mem_map_of_mem Prod.fst hq)
        rw [if_neg hne])
      hnd.2]
    simp

theorem foldl_mul_id_left :
    ∀ (l acc : List (SKey × ℚ)), (∀ p ∈ l, 0 ≤ p.1.2) →
      (∀ p ∈ l, alookup acc p.1 = none) → (akeys l).Nodup →
      l.foldl (fun a q => mulAccum a (multiply_basis (0, 0) q.1) (1 * q.2)) acc
        = acc ++ l := by
  intro l
  induction l with
  | nil => intro acc _ _ _; simp
  | cons p rest ih =>
    intro acc hm hnone hnd
    rw [akeys_cons, List.nodup_cons] at hnd
    rw [List.foldl_cons]
    have hid : multiply_basis (0, 0) p.1 = p.1 := by
      obtain ⟨⟨i, m⟩, x⟩ := p
      exact multiply_basis_id_left (hm ⟨(i, m), x⟩ (List.mem_cons_self _ _))
    have hnp : alookup acc p.1 = none := hnone p (List.mem_cons_self _ _)
    have hstep : mulAccum acc (multiply_basis (0, 0) p.1) (1 * p.2)
        = acc ++ [p] := by
      rw [hid, mulAccum_eq_none hnp, one_mul]
    rw [hstep, ih (acc ++ [p]) (fun q hq => hm q (List.mem_cons_of_mem _ hq))
      (fun q hq => by
        rw [alookup_append_of_none (hnone q (List.mem_cons_of_mem _ hq)),
          alookup_cons, alookup_nil]
        have hne : ¬(p.1 = q.1) := by
          intro he
          exact hnd.1 (he ▸ List.mem_map_of_mem Prod.fst hq)
        rw [if_neg hne])
      hnd.2]
    simp

/-! ## Lemmas for dense materialization and composition -/

theorem sliceAdjust_nonneg_le {len v : Int} (h0 : 0 ≤ v) (hle : v ≤ len) :
    sliceAdjust len v = v := by
  unfold sliceAdjust
  rw [if_neg (by omega)]
  omega

theorem sliceAdjust_nonneg_gt {len v : Int} (h0 : 0 ≤ v) (hgt : len < v) :
    sliceAdjust len v = len := by
  unfold sliceAdjust
  rw [if_neg (by omega)]
  omega

-- bridging: Bool hit to Prop
theorem diagSliceHit_pos_iff (T : Nat) {i : Int} (m f : Int) (hi : 0 ≤ i) :
    diagSliceHit T i m f = true ↔
      (sliceAdjust ((T : Int) * T) (i + ((T : Int) + 1) * m) ≤ f ∧
        f < sliceAdjust ((T : Int) * T) (((T : Int) - i) * T) ∧
        ((T : Int) + 1) ∣
          (f - sliceAdjust ((T : Int) * T) (i + ((T : Int) + 1) * m))) := by
  unfold diagSliceHit
  rw [if_pos hi]
  exact decide_eq_true_iff

theorem diagSliceHit_neg_iff (T : Nat) {i : Int} (m f : Int) (hi : ¬ 0 ≤ i) :
    diagSliceHit T i m f = true ↔
      (sliceAdjust ((T : Int) * T) ((T : Int) * (-i) + ((T : Int) + 1) * m) ≤ f ∧
        f < (T : Int) * T ∧
        ((T : Int) + 1) ∣
          (f - sliceAdjust ((T : Int) * T)
            ((T : Int) * (-i) + ((T : Int) + 1) * m))) := by
  unfold diagSliceHit
  rw [if_neg hi]
  exact decide_eq_true_iff
theorem pos_run_iff (T i m t u : Int) (hT : 1 ≤ T) (hi : 0 ≤ i)
    (hiT : i ≤ T) (hm : 0 ≤ m) (ht0 : 0 ≤ t) (ht : t < T)
    (hu0 : 0 ≤ u) (hu : u < T) :
    (sliceAdjust (T * T) (i + (T + 1) * m) ≤ t * T + u ∧
      t * T + u < sliceAdjust (T * T) ((T - i) * T) ∧
      (T + 1) ∣ (t * T + u - sliceAdjust (T * T) (i + (T + 1) * m)))
    ↔ (m ≤ t ∧ t < T - i ∧ u = t + i) := by
  have hS0 : 0 ≤ i + (T + 1) * m :=
    add_nonneg hi (mul_nonneg (by omega) hm)
  have hstop0 : 0 ≤ (T - i) * T := mul_nonneg (by omega) (by omega)
  have hstople : (T - i) * T ≤ T * T :=
    mul_le_mul_of_nonneg_right (by omega) (by omega)
  rw [sliceAdjust_nonneg_le hstop0 hstople]
  by_cases hS : i + (T + 1) * m ≤ T * T
  · rw [sliceAdjust_nonneg_le hS0 hS]
    constructor
    · rintro ⟨h1, h2, k, hk⟩
      have key : u - t - i = (T + 1) * (k + m - t) := by linear_combination hk
      have hub : (T + 1) * (k + m - t) < (T + 1) * 1 := by
        rw [← key]; omega
      have hlb : (T + 1) * (-2) < (T + 1) * (k + m - t) := by
        rw [← key]; omega
      have he1 : k + m - t < 1 := lt_of_mul_lt_mul_left hub (by omega)
      have he2 : -2 < k + m - t := lt_of_mul_lt_mul_left hlb (by omega)
      have hcase : k + m - t = -1 ∨ k + m - t = 0 := by omega
      rcases hcase with hc | hc
      · exfalso
        rw [hc] at key
        have hu' : u = t + i - (T + 1) := by omega
        subst hu'
        have htge : T + 1 - i ≤ t := by omega
        have hmul : (T + 1 - i) * T ≤ t * T :=
          mul_le_mul_of_nonneg_right htge (by omega)
        nlinarith [h2, hmul]
      · rw [hc, mul_zero] at key
        have hu' : u = t + i := by omega
        subst hu'
        have hmt : m ≤ t := by
          have hx : (T + 1) * m ≤ (T + 1) * t := by nlinarith [h1]
          exact le_of_mul_le_mul_left hx (by omega)
        have hti : t < T - i := by
          by_contra hcon
          push_neg at hcon
          have hmul : (T - i) * T ≤ t * T :=
            mul_le_mul_of_nonneg_right hcon (by omega)
          nlinarith [h2, hmul]
        exact ⟨hmt, hti, rfl⟩
    · rintro ⟨hmt, hti, rfl⟩
      refine ⟨?_, ?_, ⟨t - m, by ring⟩⟩
      · nlinarith [mul_le_mul_of_nonneg_left hmt
          (show (0:ℤ) ≤ T + 1 by omega)]
      · have h1 : t * (T + 1) ≤ (T - i - 1) * (T + 1) :=
          mul_le_mul_of_nonneg_right (by omega) (by omega)
        nlinarith [h1]
  · push_neg at hS
    rw [sliceAdjust_nonneg_gt hS0 hS]
    constructor
    · rintro ⟨h1, h2, -⟩
      exfalso
      linarith [hstople]
    · rintro ⟨hmt, hti, rfl⟩
      exfalso
      have hx1 : (T + 1) * m ≤ (T + 1) * t :=
        mul_le_mul_of_nonneg_left hmt (by omega)
      have hx2 : t * T ≤ (T - 1) * T :=
        mul_le_mul_of_nonneg_right (by omega) (by omega)
      nlinarith [hx1, hx2, hS]

theorem neg_run_iff (T i m t u : Int) (hT : 1 ≤ T) (hi : i < 0)
    (hm : 0 ≤ m) (ht0 : 0 ≤ t) (ht : t < T) (hu0 : 0 ≤ u) (hu : u < T) :
    (sliceAdjust (T * T) (T * (-i) + (T + 1) * m) ≤ t * T + u ∧
      t * T + u < T * T ∧
      (T + 1) ∣ (t * T + u - sliceAdjust (T * T) (T * (-i) + (T + 1) * m)))
    ↔ (m - i ≤ t ∧ u = t + i) := by
  have hS0 : 0 ≤ T * (-i) + (T + 1) * m :=
    add_nonneg (mul_nonneg (by omega) (by omega)) (mul_nonneg (by omega) hm)
  by_cases hS : T * (-i) + (T + 1) * m ≤ T * T
  · rw [sliceAdjust_nonneg_le hS0 hS]
    constructor
    · rintro ⟨h1, h2, k, hk⟩
      have hx : (-i) * T < (t + 1) * T := by
        nlinarith [mul_nonneg (show (0:ℤ) ≤ T + 1 by omega) hm]
      have hti0 : 0 ≤ t + i := by
        have := lt_of_mul_lt_mul_right hx (show (0:ℤ) ≤ T by omega)
        omega
      have key : u - t - i = (T + 1) * (k + m - t - i) := by
        linear_combination hk
      have hub : (T + 1) * (k + m - t - i) < (T + 1) * 1 := by
        rw [← key]; omega
      have hlb : (T + 1) * (-1) < (T + 1) * (k + m - t - i) := by
        rw [← key]; omega
      have he1 : k + m - t - i < 1 := lt_of_mul_lt_mul_left hub (by omega)
      have he2 : -1 < k + m - t - i := lt_of_mul_lt_mul_left hlb (by omega)
      have he0 : k + m - t - i = 0 := by omega
      rw [he0, mul_zero] at key
      have hu' : u = t + i := by omega
      subst hu'
      have hxm : (T + 1) * m ≤ (T + 1) * (t + i) := by nlinarith [h1]
      have hmt : m ≤ t + i := le_of_mul_le_mul_left hxm (by omega)
      exact ⟨by omega, rfl⟩
    · rintro ⟨hmt, rfl⟩
      refine ⟨?_, ?_, ⟨t + i - m, by ring⟩⟩
      · nlinarith [mul_le_mul_of_nonneg_left
          (show m ≤ t + i by omega) (show (0:ℤ) ≤ T + 1 by omega)]
      · nlinarith [mul_le_mul_of_nonneg_right
          (show t ≤ T - 1 by omega) (show (0:ℤ) ≤ T by omega)]
  · push_neg at hS
    rw [sliceAdjust_nonneg_gt hS0 hS]
    constructor
    · rintro ⟨h1, h2, -⟩
      exfalso
      linarith
    · rintro ⟨hmt, rfl⟩
      exfalso
      have hx1 : (T + 1) * m ≤ (T + 1) * (t + i) :=
        mul_le_mul_of_nonneg_left (by omega) (by omega)
      have hx2 : t * T ≤ (T - 1) * T :=
        mul_le_mul_of_nonneg_right (by omega) (by omega)
      nlinarith [hx1, hx2, hS]

-- sum over a row with at most one hit
theorem sum_ite_unique (T : Nat) (P : Nat → Prop) [DecidablePred P]
    (x : ℚ) (v : Nat → ℚ) (u₀ : Nat) (hu₀ : u₀ < T)
    (hchar : ∀ u, u < T → (P u ↔ u = u₀)) :
    ∑ u ∈ Finset.range T, (if P u then x else 0) * v u = x * v u₀ := by
  rw [Finset.sum_eq_single u₀]
  · rw [if_pos ((hchar u₀ hu₀).mpr rfl)]
  · intro b hb hne
    rw [if_neg (fun hp => hne ((hchar b (Finset.mem_range.mp hb)).mp hp)),
      zero_mul]
  · intro hnot
    exact absurd (Finset.mem_range.mpr hu₀) hnot

theorem sum_ite_empty (T : Nat) (P : Nat → Prop) [DecidablePred P]
    (x : ℚ) (v : Nat → ℚ) (hchar : ∀ u, u < T → ¬ P u) :
    ∑ u ∈ Finset.range T, (if P u then x else 0) * v u = 0 := by
  apply Finset.sum_eq_zero
  intro b hb
  rw [if_neg (hchar b (Finset.mem_range.mp hb)), zero_mul]

-- one basis element: dense row dotted with v equals the sparse loop entry
theorem elem_dense_sparse (T : Nat) (hT : 1 ≤ T) (i m : Int) (x : ℚ)
    (hm : 0 ≤ m) (hiT : i ≤ (T : Int)) (v : Nat → ℚ) (t : Nat) (ht : t < T) :
    ∑ u ∈ Finset.range T,
        (if diagSliceHit T i m ((t : Int) * T + u) then x else 0) * v u
      = elemContrib T ((i, m), x) (fun r _ => v r) t 0 := by
  have hTi : (1 : Int) ≤ (T : Int) := by exact_mod_cast hT
  have htI : (t : Int) < (T : Int) := by exact_mod_cast ht
  have ht0 : (0 : Int) ≤ (t : Int) := Int.ofNat_nonneg t
  rcases lt_trichotomy i 0 with hneg | hzero | hpos
  · unfold elemContrib
    dsimp only
    rw [if_neg (by omega), if_neg (by omega)]
    by_cases hcond : m - i ≤ (t : Int) ∧ (t : Int) < (T : Int)
    · rw [if_pos hcond]
      have hti0 : 0 ≤ (t : Int) + i := by omega
      refine sum_ite_unique T _ x v ((t : Int) + i).toNat (by omega) ?_
      intro u hu
      rw [diagSliceHit_neg_iff T m _ (by omega),
        neg_run_iff (T : Int) i m t u hTi hneg hm ht0 htI
          (Int.ofNat_nonneg u) (by exact_mod_cast hu)]
      constructor
      · rintro ⟨-, hueq⟩
        omega
      · intro hueq
        exact ⟨hcond.1, by omega⟩
    · rw [if_neg hcond]
      apply sum_ite_empty
      intro u hu
      rw [diagSliceHit_neg_iff T m _ (by omega),
        neg_run_iff (T : Int) i m t u hTi hneg hm ht0 htI
          (Int.ofNat_nonneg u) (by exact_mod_cast hu)]
      rintro ⟨hmt, -⟩
      exact hcond ⟨hmt, htI⟩
  · subst hzero
    unfold elemContrib
    dsimp only
    rw [if_pos rfl]
    by_cases hcond : m ≤ (t : Int) ∧ (t : Int) < (T : Int)
    · rw [if_pos hcond]
      refine sum_ite_unique T _ x v t ht ?_
      intro u hu
      rw [diagSliceHit_pos_iff T m _ le_rfl,
        pos_run_iff (T : Int) 0 m t u hTi le_rfl (by omega) hm ht0 htI
          (Int.ofNat_nonneg u) (by exact_mod_cast hu)]
      constructor
      · rintro ⟨-, -, hueq⟩
        omega
      · intro hueq
        exact ⟨hcond.1, by omega, by omega⟩
    · rw [if_neg hcond]
      apply sum_ite_empty
      intro u hu
      rw [diagSliceHit_pos_iff T m _ le_rfl,
        pos_run_iff (T : Int) 0 m t u hTi le_rfl (by omega) hm ht0 htI
          (Int.ofNat_nonneg u) (by exact_mod_cast hu)]
      rintro ⟨hmt, hlt, -⟩
      exact hcond ⟨hmt, by omega⟩
  · unfold elemContrib
    dsimp only
    rw [if_neg (by omega), if_pos hpos]
    by_cases hcond : m ≤ (t : Int) ∧ (t : Int) < (T : Int) - i
    · rw [if_pos hcond]
      have hti0 : 0 ≤ (t : Int) + i := by omega
      refine sum_ite_unique T _ x v ((t : Int) + i).toNat (by omega) ?_
      intro u hu
      rw [diagSliceHit_pos_iff T m _ (by omega),
        pos_run_iff (T : Int) i m t u hTi (by omega) hiT hm ht0 htI
          (Int.ofNat_nonneg u) (by exact_mod_cast hu)]
      constructor
      · rintro ⟨-, -, hueq⟩
        omega
      · intro hueq
        exact ⟨hcond.1, hcond.2, by omega⟩
    · rw [if_neg hcond]
      apply sum_ite_empty
      intro u hu
      rw [diagSliceHit_pos_iff T m _ (by omega),
        pos_run_iff (T : Int) i m t u hTi (by omega) hiT hm ht0 htI
          (Int.ofNat_nonneg u) (by exact_mod_cast hu)]
      rintro ⟨hmt, hlt, -⟩
      exact hcond ⟨hmt, hlt⟩

-- sum over all elements
theorem dense_sparse_list (T : Nat) (hT : 1 ≤ T) (v : Nat → ℚ)
    (t : Nat) (ht : t < T) :
    ∀ l : List (SKey × ℚ), (∀ p ∈ l, 0 ≤ p.1.2 ∧ p.1.1 ≤ (T : Int)) →
      ∑ u ∈ Finset.range T,
          (l.map (fun e =>
            if diagSliceHit T e.1.1 e.1.2 ((t : Int) * T + u) then e.2
            else 0)).sum * v u
        = (l.map (fun e => elemContrib T e (fun r _ => v r) t 0)).sum := by
  intro l
  induction l with
  | nil => simp
  | cons p rest ih =>
    intro hp
    simp only [List.map_cons, List.sum_cons]
    have hsplit :
        ∑ u ∈ Finset.range T,
            ((if diagSliceHit T p.1.1 p.1.2 ((t : Int) * T + u) then p.2
              else 0) +
              (rest.map (fun e =>
                if diagSliceHit T e.1.1 e.1.2 ((t : Int) * T + u) then e.2
                else 0)).sum) * v u
          = (∑ u ∈ Finset.range T,
              (if diagSliceHit T p.1.1 p.1.2 ((t : Int) * T + u) then p.2
                else 0) * v u) +
            ∑ u ∈ Finset.range T,
              (rest.map (fun e =>
                if diagSliceHit T e.1.1 e.1.2 ((t : Int) * T + u) then e.2
                else 0)).sum * v u := by
      rw [← Finset.sum_add_distrib]
      exact Finset.sum_congr rfl (fun u _ => add_mul _ _ _)
    rw [hsplit, ih (fun q hq => hp q (List.mem_cons_of_mem _ hq))]
    congr 1
    obtain ⟨⟨i, m⟩, x⟩ := p
    exact elem_dense_sparse T hT i m x
      (hp ⟨(i, m), x⟩ (List.mem_cons_self _ _)).1
      (hp ⟨(i, m), x⟩ (List.mem_cons_self _ _)).2 v t ht

-- hit-predicate equality for C4
theorem diagSliceHit_eq_spec (T : Nat) (i m : Int) (hm : 0 ≤ m)
    (hiT : i ≤ (T : Int)) (f : Int) :
    diagSliceHit T i m f = specRunHit T i m f := by
  unfold diagSliceHit specRunHit
  by_cases hi : 0 ≤ i
  · rw [if_pos hi, if_pos hi]
    have hS0 : 0 ≤ i + ((T : Int) + 1) * m :=
      add_nonneg hi (mul_nonneg (by omega) hm)
    have hstop0 : 0 ≤ ((T : Int) - i) * T := mul_nonneg (by omega) (by omega)
    have hstople : ((T : Int) - i) * T ≤ (T : Int) * T :=
      mul_le_mul_of_nonneg_right (by omega) (by omega)
    by_cases hS : i + ((T : Int) + 1) * m ≤ (T : Int) * T
    · rw [sliceAdjust_nonneg_le hS0 hS, sliceAdjust_nonneg_le hstop0 hstople]
    · push_neg at hS
      rw [sliceAdjust_nonneg_gt hS0 hS, sliceAdjust_nonneg_le hstop0 hstople]
      rw [decide_eq_decide]
      constructor
      · rintro ⟨h1, h2, -⟩
        exact absurd (lt_of_le_of_lt h1 h2) (by linarith)
      · rintro ⟨h1, h2, -⟩
        exact absurd (lt_of_le_of_lt h1 h2) (by linarith)
  · rw [if_neg hi, if_neg hi]
    have hS0 : 0 ≤ (T : Int) * (-i) + ((T : Int) + 1) * m :=
      add_nonneg (mul_nonneg (by omega) (by omega)) (mul_nonneg (by omega) hm)
    by_cases hS : (T : Int) * (-i) + ((T : Int) + 1) * m ≤ (T : Int) * T
    · rw [sliceAdjust_nonneg_le hS0 hS]
    · push_neg at hS
      rw [sliceAdjust_nonneg_gt hS0 hS]
      rw [decide_eq_decide]
      constructor
      · rintro ⟨h1, h2, -⟩
        exact absurd (lt_of_le_of_lt h1 h2) (by linarith)
      · rintro ⟨h1, h2, -⟩
        exact absurd (lt_of_le_of_lt h1 h2) (by linarith)

/-! ## Claim theorems -/

/-- Claim C1: for every pair of basis keys (i, m) and (j, n) with m, n
non-negative, multiply_basis returns (i + j, l) with l given by the
spec's case split on the signs of i, j and k = i + j; the result is
always well-defined (the function is total). -/
theorem claim_C1_multiply_basis (i m j n : Int) (hm : 0 ≤ m) (hn : 0 ≤ n) :
    multiply_basis (i, m) (j, n) =
      (i + j,
       if 0 ≤ i ∧ 0 ≤ j then max m (n - i)
       else if 0 ≤ i ∧ j < 0 ∧ 0 ≤ i + j then max m (n - (i + j))
       else if 0 ≤ i ∧ j < 0 ∧ i + j < 0 then max (m + (i + j)) n
       else if i < 0 ∧ j ≤ 0 then max (m + j) n
       else max m n + min (-i) j) := by
  simp only [multiply_basis]
  refine Prod.ext rfl ?_
  dsimp only
  split_ifs <;> omega

/-- Witness for C1 at a concrete pair of basis keys. -/
theorem claim_C1_multiply_basis_witness :
    multiply_basis (2, 1) (-3, 4) =
      (2 + -3,
       if 0 ≤ (2 : Int) ∧ 0 ≤ (-3 : Int) then max 1 (4 - 2)
       else if 0 ≤ (2 : Int) ∧ (-3 : Int) < 0 ∧ 0 ≤ (2 : Int) + -3 then
         max 1 (4 - (2 + -3))
       else if 0 ≤ (2 : Int) ∧ (-3 : Int) < 0 ∧ (2 : Int) + -3 < 0 then
         max (1 + (2 + -3)) 4
       else if (2 : Int) < 0 ∧ (-3 : Int) ≤ 0 then max (1 + -3) 4
       else max 1 4 + min (-2) (-3)) :=
  claim_C1_multiply_basis 2 1 (-3) 4 (by decide) (by decide)

/-- Claim C2, counterexample: adding the operator with the single tiny
entry (0, 0) -> 1e-15 to the empty operator keeps that entry, whose
coefficient magnitude is strictly below 1e-14: the threshold is only
applied to keys occurring in both operands. -/
theorem claim_C2_counterexample :
    alookup ((SimpleSparse.add ⟨[(((0 : Int), (0 : Int)), 1 / 10 ^ 15)]⟩
        ⟨[]⟩).elements) (0, 0) = some (1 / 10 ^ 15) ∧
      |(1 / 10 ^ 15 : ℚ)| < 1 / 10 ^ 14 := by
  constructor
  · rfl
  · rw [abs_of_pos (by norm_num)]
    norm_num

/-- Claim C2 (amended): after adding two SimpleSparse operators, every
surviving entry whose basis key occurs in BOTH operands has coefficient
magnitude at least 1e-14 (the sum is deleted when it falls below the
threshold); entries whose key occurs in only one operand are copied
unchanged and may be arbitrarily small. -/
theorem claim_C2_add_overlap (s1 s2 : SimpleSparse) (k : SKey) (c : ℚ)
    (hnd : (akeys s2.elements).Nodup)
    (h1 : k ∈ akeys s1.elements) (h2 : k ∈ akeys s2.elements)
    (hres : alookup (s1.add s2).elements k = some c) :
    1 / 10 ^ 14 ≤ |c| :=
  foldl_addStep_overlap s2.elements s1.elements hnd h2 h1 c hres

/-- Witness for the amended C2 at a concrete overlapping addition. -/
theorem claim_C2_add_overlap_witness : (1 : ℚ) / 10 ^ 14 ≤ |(2 : ℚ)| :=
  claim_C2_add_overlap ⟨[(((0 : Int), (0 : Int)), 1)]⟩
    ⟨[(((0 : Int), (0 : Int)), 1)]⟩ (0, 0) 2
    (by decide) (by decide) (by decide)
    (by norm_num [SimpleSparse.add, addStep, alookup, aupdate, List.foldl])

/-- Claim C5: the closed-form basis composition rule is associative on
basis keys (with non-negative missing counts), and hence so is the
composition of the corresponding single-entry SimpleSparse operators. -/
theorem claim_C5_basis_assoc (a b c : SKey)
    (ha : 0 ≤ a.2) (hb : 0 ≤ b.2) (hc : 0 ≤ c.2) :
    multiply_basis (multiply_basis a b) c
        = multiply_basis a (multiply_basis b c) ∧
      ∀ x y z : ℚ,
        multiply_rs_rs (multiply_rs_rs ⟨[(a, x)]⟩ ⟨[(b, y)]⟩) ⟨[(c, z)]⟩
          = multiply_rs_rs ⟨[(a, x)]⟩ (multiply_rs_rs ⟨[(b, y)]⟩ ⟨[(c, z)]⟩) := by
  refine ⟨multiply_basis_assoc a b c, ?_⟩
  intro x y z
  rw [multiply_rs_rs_singleton, multiply_rs_rs_singleton,
    multiply_rs_rs_singleton, multiply_rs_rs_singleton,
    multiply_basis_assoc, mul_assoc]

/-- Witness for C5 at concrete basis keys and coefficients. -/
theorem claim_C5_basis_assoc_witness :
    multiply_basis (multiply_basis (1, 0) (-2, 1)) (3, 2)
        = multiply_basis (1, 0) (multiply_basis (-2, 1) (3, 2)) ∧
      multiply_rs_rs (multiply_rs_rs ⟨[(((1 : Int), (0 : Int)), (2 : ℚ))]⟩
          ⟨[(((-2 : Int), (1 : Int)), 3)]⟩) ⟨[(((3 : Int), (2 : Int)), 5)]⟩
        = multiply_rs_rs ⟨[(((1 : Int), (0 : Int)), 2)]⟩
            (multiply_rs_rs ⟨[(((-2 : Int), (1 : Int)), 3)]⟩
              ⟨[(((3 : Int), (2 : Int)), 5)]⟩) :=
  ⟨(claim_C5_basis_assoc (1, 0) (-2, 1) (3, 2)
      (by decide) (by decide) (by decide)).1,
   (claim_C5_basis_assoc (1, 0) (-2, 1) (3, 2)
      (by decide) (by decide) (by decide)).2 2 3 5⟩

/-- Claim C6: composing any SimpleSparse operator (with well-formed dict
elements: unique keys, non-negative missing counts) with the identity
operator (0, 0) -> 1, on either side, returns the operator unchanged. -/
theorem claim_C6_identity (s : SimpleSparse)
    (hm : ∀ p ∈ s.elements, 0 ≤ p.1.2)
    (hnd : (akeys s.elements).Nodup) :
    multiply_rs_rs s identitySS = s ∧ multiply_rs_rs identitySS s = s := by
  constructor
  · show (⟨List.foldl
        (fun a p => mulAccum a (multiply_basis p.1 (0, 0)) (p.2 * 1))
        [] s.elements⟩ : SimpleSparse) = s
    rw [foldl_mul_id_right s.elements [] hm (fun p _ => rfl) hnd,
      List.nil_append]
  · show (⟨List.foldl
        (fun a q => mulAccum a (multiply_basis (0, 0) q.1) (1 * q.2))
        [] s.elements⟩ : SimpleSparse) = s
    rw [foldl_mul_id_left s.elements [] hm (fun p _ => rfl) hnd,
      List.nil_append]

/-- Witness for C6 at a concrete two-entry operator. -/
theorem claim_C6_identity_witness :
    multiply_rs_rs ⟨[(((1 : Int), (0 : Int)), (2 : ℚ)),
        (((-3 : Int), (2 : Int)), 5)]⟩ identitySS
      = ⟨[(((1 : Int), (0 : Int)), (2 : ℚ)), (((-3 : Int), (2 : Int)), 5)]⟩ ∧
    multiply_rs_rs identitySS ⟨[(((1 : Int), (0 : Int)), (2 : ℚ)),
        (((-3 : Int), (2 : Int)), 5)]⟩
      = ⟨[(((1 : Int), (0 : Int)), (2 : ℚ)), (((-3 : Int), (2 : Int)), 5)]⟩ :=
  claim_C6_identity _ (by decide) (by decide)

/-- Claim C3, counterexample: for the operator with single basis key
(5, 0) at horizon T = 4 the two composition paths differ: the slice in
the materialization path wraps around (Python semantics of the negative
stop (T - i) * T), writing entries the sparse path never produces. -/
theorem claim_C3_counterexample :
    matVecMul 4 (SimpleSparse.matrix ⟨[((5, 0), 1)]⟩ 4)
        (fun u => if u = 1 then 1 else 0) 1
      ≠ SimpleSparse.matmulVec ⟨[((5, 0), 1)]⟩ 4
        (fun u => if u = 1 then 1 else 0) 1 := by
  norm_num [matVecMul, SimpleSparse.matrix, addDense, diagSliceHit,
    sliceAdjust, SimpleSparse.matmulVec, multiply_rs_matrix, elemContrib,
    Finset.sum_range_succ]

/-- Claim C3 (amended): for every SimpleSparse whose basis keys (i, m)
all satisfy m ≥ 0 and i ≤ T, every horizon T ≥ 1 and every length-T
vector v, materializing to the dense T*T matrix and multiplying by v
agrees entrywise with the direct sparse composition path. -/
theorem claim_C3_dense_sparse_consistency (s : SimpleSparse) (T : Nat)
    (v : Nat → ℚ) (hT : 1 ≤ T)
    (hkeys : ∀ p ∈ s.elements, 0 ≤ p.1.2 ∧ p.1.1 ≤ (T : Int))
    (t : Nat) (ht : t < T) :
    matVecMul T (s.matrix T) v t = s.matmulVec T v t := by
  unfold matVecMul SimpleSparse.matrix addDense SimpleSparse.matmulVec
    multiply_rs_matrix
  simp only [zero_add]
  exact dense_sparse_list T hT v t ht s.elements hkeys

/-- Witness for the amended C3 at a concrete operator, horizon and
vector. -/
theorem claim_C3_dense_sparse_consistency_witness :
    matVecMul 3 (SimpleSparse.matrix ⟨[((1, 0), 2), ((-1, 1), 3)]⟩ 3)
        (fun u => (u : ℚ) + 1) 1
      = SimpleSparse.matmulVec ⟨[((1, 0), 2), ((-1, 1), 3)]⟩ 3
        (fun u => (u : ℚ) + 1) 1 :=
  claim_C3_dense_sparse_consistency ⟨[((1, 0), 2), ((-1, 1), 3)]⟩ 3
    (fun u => (u : ℚ) + 1) (by norm_num) (by decide) 1 (by norm_num)

/-- Claim C4, counterexample: for basis key (5, 0) at horizon T = 4 the
materialized matrix does not match the spec's flat-run description
(start 5, stride 5, stopping before (4-5)*4 = -4, which describes no
index at all): Python's slice semantics wrap the negative stop around,
so the code writes entry (1, 1) anyway. -/
theorem claim_C4_counterexample :
    SimpleSparse.matrix ⟨[((5, 0), 1)]⟩ 4 1 1
      ≠ specMatrixEntry ⟨[((5, 0), 1)]⟩ 4 1 1 := by
  norm_num [SimpleSparse.matrix, addDense, diagSliceHit, sliceAdjust,
    specMatrixEntry, specRunHit]

/-- Claim C4 (amended): for every SimpleSparse whose basis keys (i, m)
all satisfy m ≥ 0 and i ≤ T, materializing at horizon T places each
coefficient exactly along the flat-index runs described by the spec
(start i + (T+1)m, stride T+1, stop before (T-i)T for i ≥ 0; start
T(-i) + (T+1)m, same stride, to the end for i < 0); in particular
from_simple_diagonals {0: 2.0, 1: -1.0} materialized at T = 4 is the
explicit 4*4 matrix with 2.0 on the main diagonal and -1.0 on the first
superdiagonal. -/
theorem claim_C4_materialization (s : SimpleSparse) (T : Nat)
    (hkeys : ∀ p ∈ s.elements, 0 ≤ p.1.2 ∧ p.1.1 ≤ (T : Int))
    (t u : Nat) :
    s.matrix T t u = specMatrixEntry s T t u ∧
      (List.range 4).map (fun t' => (List.range 4).map (fun u' =>
          SimpleSparse.matrix
            (SimpleSparse.from_simple_diagonals [(0, 2), (1, -1)]) 4 t' u'))
        = [[2, -1, 0, 0], [0, 2, -1, 0], [0, 0, 2, -1], [0, 0, 0, 2]] := by
  constructor
  · unfold SimpleSparse.matrix addDense specMatrixEntry
    rw [zero_add]
    congr 1
    exact List.map_congr_left (fun e he => by
      rw [diagSliceHit_eq_spec T e.1.1 e.1.2 (hkeys e he).1 (hkeys e he).2])
  · norm_num [SimpleSparse.matrix, addDense, diagSliceHit, sliceAdjust,
      SimpleSparse.from_simple_diagonals, List.range_succ]

/-- Witness for the amended C4 at a concrete operator and cell. -/
theorem claim_C4_materialization_witness :
    SimpleSparse.matrix ⟨[((1, 0), 2), ((-1, 1), 3)]⟩ 3 0 1
        = specMatrixEntry ⟨[((1, 0), 2), ((-1, 1), 3)]⟩ 3 0 1 ∧
      (List.range 4).map (fun t' => (List.range 4).map (fun u' =>
          SimpleSparse.matrix
            (SimpleSparse.from_simple_diagonals [(0, 2), (1, -1)]) 4 t' u'))
        = [[2, -1, 0, 0], [0, 2, -1, 0], [0, 0, 2, -1], [0, 0, 0, 2]] :=
  claim_C4_materialization ⟨[((1, 0), 2), ((-1, 1), 3)]⟩ 3 (by decide) 0 1

/-! ## Lemmas for Displace, the differentiation driver and td -/

theorem shift_list_eq (x : List ℚ) (sv : ℚ) (j : Int) (hj : 0 < j) :
    x.drop j.toNat ++ List.replicate (min j.toNat x.length) sv
      = (List.range x.length).map (fun t : Nat =>
          if 0 ≤ (t : Int) + j ∧ (t : Int) + j < (x.length : Int) then
            x.getD ((t : Int) + j).toNat 0
          else sv) := by
  apply List.ext_getElem
  · simp
    omega
  · intro n h1 h2
    rw [List.getElem_map, List.getElem_range]
    by_cases hn : n < x.length - j.toNat
    · rw [List.getElem_append_left (by simp; omega)]
      rw [List.getElem_drop]
      rw [if_pos (by constructor <;> omega)]
      rw [List.getD_eq_getElem x 0 (by omega)]
      have hidx : ((n : Int) + j).toNat = j.toNat + n := by omega
      simp only [hidx]
    · rw [List.getElem_append_right (by simp; omega)]
      rw [List.getElem_replicate]
      rw [if_neg (by omega)]

theorem shift_list_eq_neg (x : List ℚ) (sv : ℚ) (j : Int) (hj : j < 0) :
    List.replicate (min (-j).toNat x.length) sv ++
        x.take (x.length - (-j).toNat)
      = (List.range x.length).map (fun t : Nat =>
          if 0 ≤ (t : Int) + j ∧ (t : Int) + j < (x.length : Int) then
            x.getD ((t : Int) + j).toNat 0
          else sv) := by
  apply List.ext_getElem
  · simp
    omega
  · intro n h1 h2
    rw [List.getElem_map, List.getElem_range]
    by_cases hn : n < min (-j).toNat x.length
    · rw [List.getElem_append_left (by simp; omega)]
      rw [List.getElem_replicate]
      rw [if_neg (by omega)]
    · have hxn : n < x.length := by
        simpa using h2
      rw [List.getElem_append_right (by simp; omega)]
      rw [List.getElem_take]
      have hc : 0 ≤ (n : Int) + j ∧ (n : Int) + j < (x.length : Int) := by
        constructor <;> omega
      rw [if_pos hc]
      rw [List.getD_eq_getElem x 0 (by omega)]
      have hidx : ((n : Int) + j).toNat
          = n - (List.replicate (min (-j).toNat x.length) sv).length := by
        simp
        omega
      simp only [hidx]

theorem Displace.call_zero (d : Displace) : d.call 0 = Except.ok d := by
  unfold Displace.call
  rw [if_pos rfl]

theorem Displace.call_error {d : Displace} (hss : d.ss = none) {j : Int}
    (hj : j ≠ 0) : d.call j = Except.error (missingSsMsg d.name j) := by
  unfold Displace.call
  rw [if_neg hj, hss]

theorem Displace.call_shift {d : Displace} {sv : ℚ} (hss : d.ss = some sv)
    {j : Int} (hj : j ≠ 0) :
    d.call j =
      (if 0 < j then
        Except.ok ⟨d.x.drop j.toNat ++
          List.replicate (min j.toNat d.x.length) sv, some sv, "UNKNOWN"⟩
      else
        Except.ok ⟨List.replicate (min (-j).toNat d.x.length) sv ++
          d.x.take (d.x.length - (-j).toNat), some sv, "UNKNOWN"⟩) := by
  unfold Displace.call
  rw [if_neg hj, hss]

theorem jacStep_preserves {yup ydown : Int → ℚ} {h : ℚ} {i p : Int}
    (hne : p ≠ i) (sd : List (Int × ℚ)) :
    alookup (if yup p ≠ ydown p then
        sd ++ [(p, (yup p - ydown p) / (2 * h))]
      else sd) i = alookup sd i := by
  by_cases hcond : yup p ≠ ydown p
  · rw [if_pos hcond]
    cases hv : alookup sd i with
    | none =>
        rw [alookup_append_of_none hv, alookup_cons, alookup_nil, if_neg hne]
    | some v => rw [alookup_append_of_some hv]
  · rw [if_neg hcond]

theorem jacFold_preserves {yup ydown : Int → ℚ} {h : ℚ} {i : Int} :
    ∀ {l : List Int}, i ∉ l → ∀ sd : List (Int × ℚ),
      alookup (l.foldl (fun sd k =>
        if yup k ≠ ydown k then sd ++ [(k, (yup k - ydown k) / (2 * h))]
        else sd) sd) i = alookup sd i := by
  intro l
  induction l with
  | nil => intro _ sd; rfl
  | cons p rest ih =>
    intro hk sd
    rw [List.mem_cons] at hk
    push_neg at hk
    rw [List.foldl_cons, ih hk.2, jacStep_preserves (fun he => hk.1 he.symm)]

theorem jacFold_lookup {yup ydown : Int → ℚ} {h : ℚ} {i : Int} :
    ∀ (l : List Int) (sd : List (Int × ℚ)), l.Nodup → i ∈ l →
      alookup sd i = none →
      ((yup i = ydown i →
        alookup (l.foldl (fun sd k =>
          if yup k ≠ ydown k then sd ++ [(k, (yup k - ydown k) / (2 * h))]
          else sd) sd) i = none) ∧
       (yup i ≠ ydown i →
        alookup (l.foldl (fun sd k =>
          if yup k ≠ ydown k then sd ++ [(k, (yup k - ydown k) / (2 * h))]
          else sd) sd) i = some ((yup i - ydown i) / (2 * h)))) := by
  intro l
  induction l with
  | nil => intro sd _ hmem; exact absurd hmem (List.not_mem_nil i)
  | cons p rest ih =>
    intro sd hnd hmem hnone
    rw [List.nodup_cons] at hnd
    by_cases hpi : p = i
    · subst hpi
      constructor
      · intro heq
        rw [List.foldl_cons, jacFold_preserves hnd.1,
          if_neg (fun hne => hne heq), hnone]
      · intro hne
        rw [List.foldl_cons, jacFold_preserves hnd.1, if_pos hne,
          alookup_append_of_none hnone, alookup_cons, alookup_nil,
          if_pos rfl]
    · have hmem' : i ∈ rest := by
        rcases List.mem_cons.mp hmem with he | he
        · exact absurd he.symm hpi
        · exact he
      have hnone' : alookup (if yup p ≠ ydown p then
          sd ++ [(p, (yup p - ydown p) / (2 * h))] else sd) i = none := by
        rw [jacStep_preserves hpi, hnone]
      rw [List.foldl_cons]
      exact ih _ hnd.2 hmem' hnone'

theorem tdWrap_scalar_first (ss : String → Option ℚ) (k : String) (x : ℚ) :
    ∀ (pre suf : List (String × TDValue)),
      (∀ p ∈ pre, ∀ y : ℚ, p.2 ≠ TDValue.scalar y) →
      tdWrap ss (pre ++ (k, TDValue.scalar x) :: suf)
        = Except.error (tdScalarMsg k x) := by
  intro pre
  induction pre with
  | nil => intro suf _; rfl
  | cons p rest ih =>
    intro suf hp
    obtain ⟨k', v⟩ := p
    cases v with
    | scalar y =>
        exact absurd rfl
          (hp ⟨k', TDValue.scalar y⟩ (List.mem_cons_self _ _) y)
    | path xs =>
        rw [List.cons_append]
        simp only [tdWrap]
        rw [ih suf (fun q hq => hp q (List.mem_cons_of_mem _ hq))]

theorem tdWrap_all_paths (ss : String → Option ℚ) :
    ∀ kwargs : List (String × TDValue),
      (∀ p ∈ kwargs, ∀ y : ℚ, p.2 ≠ TDValue.scalar y) →
      ∃ l, tdWrap ss kwargs = Except.ok l := by
  intro kwargs
  induction kwargs with
  | nil => intro _; exact ⟨[], rfl⟩
  | cons p rest ih =>
    intro hp
    obtain ⟨k', v⟩ := p
    cases v with
    | scalar y =>
        exact absurd rfl
          (hp ⟨k', TDValue.scalar y⟩ (List.mem_cons_self _ _) y)
    | path xs =>
        obtain ⟨l, hl⟩ := ih (fun q hq => hp q (List.mem_cons_of_mem _ hq))
        refine ⟨(k', ⟨xs, ss k', k'⟩) :: l, ?_⟩
        simp only [tdWrap]
        rw [hl]

/-- Claim C7: in the differentiation driver, for every discovered offset,
a bitwise-equal pair of +h and -h evaluations leaves a structural zero (no
entry in the sparsederiv dict), and an unequal pair records the
symmetric difference quotient at that offset; in particular the lag
block y = a(-1) yields exactly the single-entry operator (-1, 0) -> 1
and no offset-0 entry. -/
theorem claim_C7_driver :
    (∀ (offsets : List Int) (yup ydown : Int → ℚ) (h : ℚ) (i : Int),
      offsets.Nodup → i ∈ offsets →
      ((yup i = ydown i →
          alookup (jacDriver offsets yup ydown h) i = none) ∧
        (yup i ≠ ydown i →
          alookup (jacDriver offsets yup ydown h) i
            = some ((yup i - ydown i) / (2 * h))))) ∧
    (∀ ss h : ℚ, h ≠ 0 →
      SimpleSparse.from_simple_diagonals
          (jacOneInput (BlockExpr.call (-1)) ss h)
        = ⟨[((-1, 0), 1)]⟩ ∧
      alookup (jacOneInput (BlockExpr.call (-1)) ss h) 0 = none) := by
  constructor
  · intro offsets yup ydown h i hnd hmem
    exact jacFold_lookup offsets [] hnd hmem rfl
  · intro ss h hne
    have e1 : evalPerturb ss h (-1) (BlockExpr.call (-1)) = ss + h := by
      norm_num [evalPerturb, perturbCall, perturbSelf]
    have e2 : evalPerturb ss (-h) (-1) (BlockExpr.call (-1)) = ss + -h := by
      norm_num [evalPerturb, perturbCall, perturbSelf]
    have e3 : evalPerturb ss h 0 (BlockExpr.call (-1)) = ss := by
      norm_num [evalPerturb, perturbCall, perturbSelf]
    have e4 : evalPerturb ss (-h) 0 (BlockExpr.call (-1)) = ss := by
      norm_num [evalPerturb, perturbCall, perturbSelf]
    have hded : ((0 : Int) :: reporterOffsets (BlockExpr.call (-1))).dedup
        = [0, -1] := by decide
    unfold jacOneInput
    rw [hded]
    unfold jacDriver
    simp only [List.foldl_cons, List.foldl_nil]
    have h0ne : ¬(evalPerturb ss h 0 (BlockExpr.call (-1))
        ≠ evalPerturb ss (-h) 0 (BlockExpr.call (-1))) :=
      fun hc => hc (e3.trans e4.symm)
    have h1ne : evalPerturb ss h (-1) (BlockExpr.call (-1))
        ≠ evalPerturb ss (-h) (-1) (BlockExpr.call (-1)) := by
      rw [e1, e2]
      intro hc
      apply hne
      linarith
    rw [if_neg h0ne, if_pos h1ne]
    rw [e1, e2, List.nil_append]
    have hco : (ss + h - (ss + -h)) / (2 * h) = 1 := by
      rw [show ss + h - (ss + -h) = 2 * h by ring]
      exact div_self (mul_ne_zero two_ne_zero hne)
    rw [hco]
    exact ⟨rfl, rfl⟩

/-- Witness for C7: a concrete driver run and the lag block at ss = 0,
h = 1. -/
theorem claim_C7_driver_witness :
    alookup (jacDriver [0] (fun _ => (0 : ℚ)) (fun _ => (0 : ℚ)) 1) 0
        = none ∧
      SimpleSparse.from_simple_diagonals
          (jacOneInput (BlockExpr.call (-1)) 0 1)
        = ⟨[((-1, 0), 1)]⟩ :=
  ⟨(claim_C7_driver.1 [0] (fun _ => (0 : ℚ)) (fun _ => (0 : ℚ)) 1 0
      (by decide) (by decide)).1 rfl,
   (claim_C7_driver.2 0 1 (by norm_num)).1⟩

/-- Claim C8: a Displace value evaluates to itself at offset 0; at a
nonzero offset with a steady state present it returns the shifted path
with vacated boundary entries filled by the steady state; at a nonzero
offset without a steady state it raises the KeyError naming the
variable and the requested offset. -/
theorem claim_C8_displace (d : Displace) (j : Int) :
    (d.call 0 = Except.ok d) ∧
    (∀ sv : ℚ, j ≠ 0 → d.ss = some sv →
      ∃ d' : Displace, d.call j = Except.ok d' ∧ d'.ss = some sv ∧
        d'.x = (List.range d.x.length).map (fun t : Nat =>
          if 0 ≤ (t : Int) + j ∧ (t : Int) + j < (d.x.length : Int) then
            d.x.getD ((t : Int) + j).toNat 0
          else sv)) ∧
    (j ≠ 0 → d.ss = none →
      d.call j = Except.error (missingSsMsg d.name j)) := by
  refine ⟨Displace.call_zero d, ?_,
    fun hj hss => Displace.call_error hss hj⟩
  intro sv hj hss
  rw [Displace.call_shift hss hj]
  by_cases hpos : 0 < j
  · rw [if_pos hpos]
    exact ⟨_, rfl, rfl, shift_list_eq d.x sv j hpos⟩
  · rw [if_neg hpos]
    exact ⟨_, rfl, rfl, shift_list_eq_neg d.x sv j (by omega)⟩

/-- Witness for C8: identity at offset 0 for a concrete path, and the
missing-steady-state error for a concrete path without one. -/
theorem claim_C8_displace_witness :
    (Displace.mk [1, 2, 3] (some 5) "a").call 0
        = Except.ok (Displace.mk [1, 2, 3] (some 5) "a") ∧
      (Displace.mk [1, 2] none "b").call 1
        = Except.error (missingSsMsg "b" 1) :=
  ⟨(claim_C8_displace (Displace.mk [1, 2, 3] (some 5) "a") 1).1,
   (claim_C8_displace (Displace.mk [1, 2] none "b") 1).2.2
     (by norm_num) rfl⟩

/-- Claim C9, counterexample: composing the identity operator with a
non-square 2 x 3 matrix through @ is NOT an error: the rank-2 branch of
__matmul__ accepts any column count. -/
theorem claim_C9_counterexample :
    SimpleSparse.matmul identitySS ⟨[2, 3], fun _ => 1⟩ ≠ none := by
  simp [SimpleSparse.matmul, NDArray.ndim]

/-- Claim C9 (amended): composing a SimpleSparse with an array through @
(operator on the left) is reported as a type error (NotImplemented,
modelled as none) exactly when the array rank is neither 1 nor 2;
rank-2 arrays are accepted whether or not they are square. -/
theorem claim_C9_matmul_rank (s : SimpleSparse) (A : NDArray) :
    s.matmul A = none ↔ A.ndim ≠ 1 ∧ A.ndim ≠ 2 := by
  unfold SimpleSparse.matmul
  by_cases h2 : A.ndim = 2
  · rw [if_pos h2]
    simp [h2]
  · rw [if_neg h2]
    by_cases h1 : A.ndim = 1
    · rw [if_pos h1]
      simp [h1, h2]
    · rw [if_neg h1]
      simp [h1, h2]

/-- Claim C10: SimpleBlock.td raises the ValueError naming the first
scalar keyword argument before the block function is ever evaluated
(the result does not depend on the block function at all), and accepts
any kwargs whose values are all time paths, in which case it evaluates
the block function. -/
theorem claim_C10_td_scalar :
    (∀ (f : List (String × Displace) → ℚ) (ss : String → Option ℚ)
        (pre suf : List (String × TDValue)) (k : String) (x : ℚ),
      (∀ p ∈ pre, ∀ y : ℚ, p.2 ≠ TDValue.scalar y) →
      SimpleBlock.td f ss (pre ++ (k, TDValue.scalar x) :: suf)
        = Except.error (tdScalarMsg k x)) ∧
    (∀ (f : List (String × Displace) → ℚ) (ss : String → Option ℚ)
        (kwargs : List (String × TDValue)),
      (∀ p ∈ kwargs, ∀ y : ℚ, p.2 ≠ TDValue.scalar y) →
      ∃ l, SimpleBlock.td f ss kwargs = Except.ok (f l)) := by
  constructor
  · intro f ss pre suf k x hp
    unfold SimpleBlock.td
    rw [tdWrap_scalar_first ss k x pre suf hp]
  · intro f ss kwargs hp
    obtain ⟨l, hl⟩ := tdWrap_all_paths ss kwargs hp
    refine ⟨l, ?_⟩
    unfold SimpleBlock.td
    rw [hl]

/-- Witness for C10: a concrete td call with one path argument followed
by a scalar argument errors with the message naming the scalar. -/
theorem claim_C10_td_scalar_witness :
    SimpleBlock.td (fun _ => 0) (fun _ => none)
        [("a", TDValue.path [1, 2]), ("b", TDValue.scalar 3)]
      = Except.error (tdScalarMsg "b" 3) :=
  claim_C10_td_scalar.1 (fun _ => 0) (fun _ => none)
    [("a", TDValue.path [1, 2])] [] "b" 3
    (by
      intro p hp y
      rcases List.mem_singleton.mp hp with rfl
      intro hcon
      exact TDValue.noConfusion hcon)
